import Mathlib

/-!
# Verification of the Indexer core (src/indexer.c)

Shallow embedding of the index-and-search engine of `src/indexer.c`:
the case-insensitive substring matcher `stristr`, the DJB2 hash, the
hash-table index (`addFile`, `clearIndex`), the bounded linear scan of
`app_loop`, and the Enter/selection handling of `app_loop`.

Strings are modelled as lists of byte values (`List Nat`, each element the
unsigned value of one byte of a NUL-terminated C string, hence never 0);
the NUL terminator itself is represented by the end of the list.
-/

namespace Indexer

/-- `#define HASH_TABLE_SIZE 16384` (indexer.c line 34). -/
def HASH_TABLE_SIZE : Nat := 16384

/-- `#define VIEWPORT_HEIGHT 12` (indexer.c line 36). -/
def VIEWPORT_HEIGHT : Nat := 12

/-- `#define MAX_RESULTS 50` (indexer.c line 37). -/
def MAX_RESULTS : Nat := 50

/-- Modulus of C `unsigned long` arithmetic on the LP64 platforms the
POSIX branch of the code targets. -/
def ULONG_MOD : Nat := 2 ^ 64

/-- ASCII `tolower` on a byte value: `'A'..'Z'` map to `'a'..'z'`, every
other byte (including non-ASCII bytes) is returned unchanged. -/
def toLowerB (c : Nat) : Nat := if 65 ≤ c ∧ c ≤ 90 then c + 32 else c

/-- One case-folded character comparison,
`tolower((unsigned char)*h) == tolower((unsigned char)*n)`. -/
def charsEqI (a b : Nat) : Bool := toLowerB a == toLowerB b

/-- The inner `while` loop of `stristr` (indexer.c lines 75-79): advance
`h`/`n` while both strings have characters left and they compare equal
case-insensitively; succeed iff the needle was exhausted (`!*n`). -/
def scanCmp : List Nat → List Nat → Bool
  | _, [] => true
  | [], _ :: _ => false
  | h :: hs, n :: ns => charsEqI h n && scanCmp hs ns

/-- The outer `for` loop of `stristr` (indexer.c lines 72-81): at each
position of the haystack whose head compares equal to the needle's first
character, run the inner comparison; otherwise advance. -/
def stristrFrom : List Nat → Nat → List Nat → Bool
  | [], _, _ => false
  | h :: hs, n, ns =>
      (charsEqI h n && scanCmp (h :: hs) (n :: ns)) || stristrFrom hs n ns

/-- `stristr(haystack, needle)` (indexer.c lines 70-83), as the Boolean
`stristr(...) != NULL` used by the search loop: an empty needle matches
immediately (`if (!*needle) return haystack`). -/
def stristr (haystack needle : List Nat) : Bool :=
  match needle with
  | [] => true
  | n :: ns => stristrFrom haystack n ns

/-- The accumulation loop of `hash` (indexer.c lines 88-89):
`hash = ((hash << 5) + hash) + tolower(c)`, in wrapping `unsigned long`
arithmetic (`(h << 5) + h = h * 33`). -/
def hashAcc : Nat → List Nat → Nat
  | h, [] => h
  | h, c :: cs => hashAcc ((h * 33 + toLowerB c) % ULONG_MOD) cs

/-- `hash(str)` (indexer.c lines 85-91): DJB2 with inline `tolower`,
seeded with 5381, reduced `% HASH_TABLE_SIZE`. -/
def hash (s : List Nat) : Nat := hashAcc 5381 s % HASH_TABLE_SIZE

/-- `struct FileEntry` (indexer.c lines 48-52); the `next` pointer is
represented by the bucket list structure itself. -/
structure FileEntry where
  filename : List Nat
  fullpath : List Nat
deriving DecidableEq

/-- The global index state: `FileEntry *hashTable[HASH_TABLE_SIZE]` and
`long totalFiles` (indexer.c lines 54-55).  Buckets are modelled as a
function from bucket number to the list headed by `hashTable[i]`; only
indices below `HASH_TABLE_SIZE` are ever used by the code. -/
structure IndexState where
  hashTable : Nat → List FileEntry
  totalFiles : Nat

/-- The state after `memset(hashTable, 0, sizeof(hashTable))` with
`totalFiles = 0` (indexer.c lines 55 and 375). -/
def emptyIndex : IndexState where
  hashTable := fun _ => []
  totalFiles := 0

/-- `addFile(name, path)` (indexer.c lines 95-105): compute the bucket,
prepend a fresh entry to that bucket's chain, increment `totalFiles`.
(The `malloc` failure path, which skips the insertion, is not modelled:
the claims concern successful insertions.) -/
def addFile (σ : IndexState) (name path : List Nat) : IndexState where
  hashTable :=
    Function.update σ.hashTable (hash name)
      (⟨name, path⟩ :: σ.hashTable (hash name))
  totalFiles := σ.totalFiles + 1

/-- `clearIndex()` (indexer.c lines 107-120): free every chain, null out
every bucket, reset `totalFiles`. -/
def clearIndex (_σ : IndexState) : IndexState where
  hashTable := fun _ => []
  totalFiles := 0

/-- The build phase: one `addFile` per `(name, fullPath)` pair yielded by
directory traversal (indexer.c `traverseDirectory`). -/
def insertAll (files : List (List Nat × List Nat)) (σ : IndexState) :
    IndexState :=
  files.foldl (fun τ f => addFile τ f.1 f.2) σ

/-- Full-table iteration order: every bucket `0 .. HASH_TABLE_SIZE-1`, and
within a bucket the chain from its head (the double loop used by both the
search scan, indexer.c lines 279-288, and `clearIndex`). -/
def allEntries (σ : IndexState) : List FileEntry :=
  (List.range HASH_TABLE_SIZE).flatMap (fun i => σ.hashTable i)

/-- Sum of the lengths of all buckets of the table. -/
def sumBucketLens (σ : IndexState) : Nat :=
  ∑ i in Finset.range HASH_TABLE_SIZE, (σ.hashTable i).length

/-- The counting invariant of the index: `totalFiles` equals the sum of
all bucket lengths. -/
def Inv (σ : IndexState) : Prop := σ.totalFiles = sumBucketLens σ

/-- The walk of one bucket's chain in the search loop (indexer.c lines
280-287): test each entry with `stristr`, append hits
(`matches[count++] = entry`), and stop the whole scan as soon as
`count >= VIEWPORT_HEIGHT`. -/
def scanBucket (q : List Nat) (acc : List FileEntry) :
    List FileEntry → List FileEntry
  | [] => acc
  | e :: rest =>
      if stristr e.filename q then
        let acc2 := acc ++ [e]
        if VIEWPORT_HEIGHT ≤ acc2.length then acc2 else scanBucket q acc2 rest
      else scanBucket q acc rest

/-- The outer bucket loop of the search (indexer.c line 279), threaded
over the list of bucket indices still to visit; the
`goto search_finished` early exit is the cap test after each bucket. -/
def scanBuckets (σ : IndexState) (q : List Nat) :
    List Nat → List FileEntry → List FileEntry
  | [], acc => acc
  | i :: is, acc =>
      let acc2 := scanBucket q acc (σ.hashTable i)
      if VIEWPORT_HEIGHT ≤ acc2.length then acc2 else scanBuckets σ q is acc2

/-- The search logic of one iteration of `app_loop` (indexer.c lines
274-290): `count = 0`, and only a non-empty query
(`strlen(query) > 0`) scans the table. -/
def searchMatches (σ : IndexState) (q : List Nat) : List FileEntry :=
  if 0 < q.length then scanBuckets σ q (List.range HASH_TABLE_SIZE) []
  else []

/-- The search step as a state transformer: the scan reads `hashTable`
and `totalFiles` but writes only the loop locals `matches`, `count`,
`i` and `entry` (indexer.c lines 274-290), so the index component of the
state is returned unchanged. -/
def searchS (σ : IndexState) (q : List Nat) :
    List FileEntry × IndexState :=
  (searchMatches σ q, σ)

/-- The case-folded matches of one bucket, in chain order. -/
def bucketMatches (q : List Nat) (l : List FileEntry) : List FileEntry :=
  l.filter (fun e => stristr e.filename q)

/-- All matching entries of the buckets listed in `is`, in scan order. -/
def allMatchesIn (σ : IndexState) (q : List Nat) (is : List Nat) :
    List FileEntry :=
  is.flatMap (fun i => bucketMatches q (σ.hashTable i))

/-- All matching entries of the whole table, in scan order. -/
def allMatches (σ : IndexState) (q : List Nat) : List FileEntry :=
  allMatchesIn σ q (List.range HASH_TABLE_SIZE)

/-- C `isspace` in the default locale: space, `\t`, `\n`, `\v`, `\f`,
`\r` (bytes 32 and 9-13). -/
def isspaceB (c : Nat) : Bool := c == 32 || (9 ≤ c && c ≤ 13)

/-- The digit-accumulation loop of `atoi`: consume decimal digits,
stop at the first non-digit. -/
def digitsAcc : Int → List Nat → Int
  | acc, [] => acc
  | acc, c :: cs =>
      if 48 ≤ c ∧ c ≤ 57 then digitsAcc (acc * 10 + ((c : Int) - 48)) cs
      else acc

/-- C `atoi(numBuf)` (indexer.c line 322): skip leading whitespace, an
optional sign (`'+'` = 43, `'-'` = 45), then decimal digits; no digits
yield 0.  Modelled over unbounded integers: the 15-byte `fgets` buffer
keeps the values relevant to the claims far from `int` overflow. -/
def atoi (s : List Nat) : Int :=
  match s.dropWhile (fun c => isspaceB c) with
  | 43 :: r => digitsAcc 0 r
  | 45 :: r => - digitsAcc 0 r
  | r => digitsAcc 0 r

/-- Result of the Enter branch of `app_loop`: which full path (if any)
was handed to `openFile`, and the query buffer afterwards. -/
structure EnterOutcome where
  launched : Option (List Nat)
  query : List Nat
deriving DecidableEq

/-- The Enter handling of `app_loop` (indexer.c lines 305-344), given the
current query, the current match list (`matches[0..count-1]`) and the
line read by `fgets` (`none` when `fgets` fails): if `count > 0`, read a
selection, launch `matches[choice-1]->fullpath` exactly when
`choice > 0 && choice <= count`, and unconditionally clear the query
buffer (`memset(query, 0, sizeof(query))`); if `count == 0`, nothing
happens. -/
def handleEnter (query : List Nat) (ms : List FileEntry)
    (input : Option (List Nat)) : EnterOutcome :=
  if 0 < ms.length then
    { launched :=
        match input with
        | none => none
        | some line =>
            let choice := atoi line
            if 0 < choice ∧ choice ≤ (ms.length : Int) then
              (ms.get? (choice.toNat - 1)).map FileEntry.fullpath
            else none
      query := [] }
  else { launched := none, query := query }

/-- Pure DJB2 accumulation, without the machine-word wrap. -/
def djb2Acc : Nat → List Nat → Nat
  | h, [] => h
  | h, c :: cs => djb2Acc (h * 33 + c) cs

/-- Spec-side bucket formula, following the spec's words: "bucket =
hash(lowercase(name)) mod TABLE_SIZE" — DJB2 computed over the
ASCII-lowercased byte sequence of the name, reduced modulo the table
size. -/
def bucketSpec (name : List Nat) : Nat :=
  djb2Acc 5381 (name.map toLowerB) % HASH_TABLE_SIZE

/-- Spec-side launch condition, following the claim's words: the launcher
is invoked iff the MatchSet is non-empty of size N and the textual
selection parses to an integer choice with `1 ≤ choice ≤ N`, in which
case it receives the full path of entry number `choice`. -/
def launchSpec (ms : List FileEntry) (input : Option (List Nat)) :
    Option (List Nat) :=
  match input with
  | none => none
  | some line =>
      let choice := atoi line
      if ms ≠ [] ∧ 1 ≤ choice ∧ choice ≤ (ms.length : Int) then
        (ms.get? (choice.toNat - 1)).map FileEntry.fullpath
      else none

/-! ## The matcher (claim C1) -/

theorem scanCmp_iff (needle hay : List Nat) :
    scanCmp hay needle = true ↔ needle.map toLowerB <+: hay.map toLowerB := by
  induction needle generalizing hay with
  | nil =>
      constructor
      · intro _
        exact List.nil_prefix
      · intro _
        cases hay <;> rfl
  | cons n ns ih =>
      cases hay with
      | nil => simp [scanCmp, List.prefix_nil]
      | cons h hs =>
          show (charsEqI h n && scanCmp hs ns) = true ↔ _
          simp only [Bool.and_eq_true, charsEqI, beq_iff_eq, ih hs,
            List.map_cons, List.cons_prefix_cons]
          constructor <;> rintro ⟨h1, h2⟩ <;> exact ⟨h1.symm, h2⟩

theorem charsEqI_and_scanCmp (h n : Nat) (hs ns : List Nat) :
    (charsEqI h n && scanCmp (h :: hs) (n :: ns)) = scanCmp (h :: hs) (n :: ns) := by
  show (charsEqI h n && (charsEqI h n && scanCmp hs ns))
        = (charsEqI h n && scanCmp hs ns)
  cases charsEqI h n <;> simp

theorem stristrFrom_iff (hay : List Nat) (n : Nat) (ns : List Nat) :
    stristrFrom hay n ns = true ↔
      (toLowerB n :: ns.map toLowerB) <:+: hay.map toLowerB := by
  induction hay with
  | nil => simp [stristrFrom, List.infix_nil]
  | cons h hs ih =>
      show ((charsEqI h n && scanCmp (h :: hs) (n :: ns))
              || stristrFrom hs n ns) = true ↔ _
      rw [charsEqI_and_scanCmp]
      simp only [Bool.or_eq_true, scanCmp_iff, ih, List.map_cons,
        List.infix_cons_iff]

/-- **C1**: the matcher returns true iff the ASCII-lowercased query occurs
as a contiguous substring of the ASCII-lowercased filename (non-ASCII
bytes compared as-is); in particular the empty query matches every
filename when `stristr` is called directly. -/
theorem stristr_correct (f s : List Nat) :
    (stristr f s = true ↔ s.map toLowerB <:+: f.map toLowerB)
    ∧ stristr f [] = true := by
  refine ⟨?_, rfl⟩
  cases s with
  | nil => simp [stristr, List.nil_infix]
  | cons n ns =>
      rw [show stristr f (n :: ns) = stristrFrom f n ns from rfl, List.map_cons]
      exact stristrFrom_iff f n ns

/-! ## Easy index and loop facts (claims C4, C6, C8, C9) -/

/-- **C4**: for the empty query the search returns an empty match
sequence for every index state; the `strlen(query) > 0` guard keeps the
scan from visiting any bucket. -/
theorem search_empty_query (σ : IndexState) : searchMatches σ [] = [] := rfl

/-- **C6**: `addFile` computes `bucket = hash(name)`, prepends the new
entry to that bucket (most-recent-first enumeration), increments
`totalFiles` by exactly one, and a second insertion of the same name
retains both entries as distinct records of the same bucket. -/
theorem addFile_prepends (σ : IndexState) (n p p2 : List Nat) :
    (addFile σ n p).hashTable (hash n) = ⟨n, p⟩ :: σ.hashTable (hash n)
    ∧ (addFile σ n p).totalFiles = σ.totalFiles + 1
    ∧ (addFile (addFile σ n p) n p2).hashTable (hash n)
        = ⟨n, p2⟩ :: ⟨n, p⟩ :: σ.hashTable (hash n) := by
  refine ⟨?_, rfl, ?_⟩ <;> simp [addFile, Function.update_same]

theorem flatMap_const_nil {α β : Type} (l : List α) :
    (l.flatMap fun _ => ([] : List β)) = [] := by
  induction l with
  | nil => rfl
  | cons a l ih =>
      rw [List.flatMap_cons, ih]
      rfl

/-! ## Characterizing the bounded scan (claims C2, C3) -/

theorem scanBucket_spec (q : List Nat) (l : List FileEntry) :
    ∀ acc : List FileEntry, acc.length < VIEWPORT_HEIGHT →
      scanBucket q acc l
        = acc ++ (bucketMatches q l).take (VIEWPORT_HEIGHT - acc.length) := by
  induction l with
  | nil =>
      intro acc h
      simp [scanBucket, bucketMatches]
  | cons e rest ih =>
      intro acc h
      by_cases hm : stristr e.filename q = true
      · simp only [scanBucket, hm, if_true, List.length_append,
          List.length_cons, List.length_nil]
        by_cases hcap : VIEWPORT_HEIGHT ≤ acc.length + (0 + 1)
        · rw [if_pos hcap]
          have h1 : VIEWPORT_HEIGHT - acc.length = 1 := by omega
          rw [h1]
          simp [bucketMatches, hm]
        · rw [if_neg hcap]
          rw [ih (acc ++ [e]) (by simp; omega)]
          have h2 : VIEWPORT_HEIGHT - acc.length
              = (VIEWPORT_HEIGHT - (acc.length + 1)) + 1 := by omega
          rw [h2]
          simp [bucketMatches, hm, List.take_succ_cons]
      · rw [show scanBucket q acc (e :: rest) = scanBucket q acc rest from by
              simp [scanBucket, hm]]
        rw [ih acc h]
        simp [bucketMatches, List.filter_cons, hm]

theorem scanBuckets_spec (σ : IndexState) (q : List Nat) (is : List Nat) :
    ∀ acc : List FileEntry, acc.length < VIEWPORT_HEIGHT →
      scanBuckets σ q is acc
        = acc ++ (allMatchesIn σ q is).take (VIEWPORT_HEIGHT - acc.length) := by
  induction is with
  | nil =>
      intro acc h
      simp [scanBuckets, allMatchesIn]
  | cons i is ih =>
      intro acc h
      simp only [scanBuckets]
      rw [scanBucket_spec q _ acc h]
      have hsplit : allMatchesIn σ q (i :: is)
          = bucketMatches q (σ.hashTable i) ++ allMatchesIn σ q is := by
        simp [allMatchesIn]
      by_cases hcap : VIEWPORT_HEIGHT
          ≤ (acc ++ (bucketMatches q (σ.hashTable i)).take
              (VIEWPORT_HEIGHT - acc.length)).length
      · rw [if_pos hcap]
        have hlen : VIEWPORT_HEIGHT - acc.length
            ≤ (bucketMatches q (σ.hashTable i)).length := by
          simp [List.length_append, List.length_take] at hcap
          omega
        rw [hsplit, List.take_append_of_le_length hlen]
      · rw [if_neg hcap]
        simp only [List.length_append, List.length_take] at hcap
        have hblen : (bucketMatches q (σ.hashTable i)).length
            < VIEWPORT_HEIGHT - acc.length := by omega
        have htake : (bucketMatches q (σ.hashTable i)).take
            (VIEWPORT_HEIGHT - acc.length) = bucketMatches q (σ.hashTable i) :=
          List.take_of_length_le (le_of_lt hblen)
        rw [htake]
        rw [ih _ (by simp; omega)]
        rw [hsplit, List.take_append_eq_append_take, htake]
        have hidx : VIEWPORT_HEIGHT
              - (acc ++ bucketMatches q (σ.hashTable i)).length
            = VIEWPORT_HEIGHT - acc.length
              - (bucketMatches q (σ.hashTable i)).length := by
          simp only [List.length_append]
          omega
        rw [hidx, List.append_assoc]

/-- For a non-empty query, the scan returns exactly the first
`VIEWPORT_HEIGHT` matching entries in scan order. -/
theorem search_characterization (σ : IndexState) (q : List Nat)
    (hq : q ≠ []) :
    searchMatches σ q = (allMatches σ q).take VIEWPORT_HEIGHT := by
  unfold searchMatches
  rw [if_pos (List.length_pos.mpr hq)]
  rw [scanBuckets_spec σ q (List.range HASH_TABLE_SIZE) [] (by decide)]
  simp [allMatches]

/-- **C2**: for every index state and query, the search returns at most
`MAX_RESULTS` entries (the actual cap, `VIEWPORT_HEIGHT = 12`, is below
`MAX_RESULTS = 50`), and every returned entry's filename matches the
query. -/
theorem search_bounded_and_sound (σ : IndexState) (q : List Nat) :
    (searchMatches σ q).length ≤ MAX_RESULTS
    ∧ ∀ e ∈ searchMatches σ q, stristr e.filename q = true := by
  by_cases hq : q = []
  · subst hq
    exact ⟨Nat.zero_le _, by intro e he; cases he⟩
  · rw [search_characterization σ q hq]
    constructor
    · have h1 := List.length_take_le VIEWPORT_HEIGHT (allMatches σ q)
      have h2 : VIEWPORT_HEIGHT ≤ MAX_RESULTS := by decide
      omega
    · intro e he
      have hmem : e ∈ allMatches σ q := List.take_subset _ _ he
      simp only [allMatches, allMatchesIn] at hmem
      rcases List.mem_flatMap.mp hmem with ⟨i, _, hi⟩
      simpa using (List.mem_filter.mp hi).2

/-- **C8**: `clearIndex` on any index state removes all entries from all
buckets: afterwards `totalFiles = 0` and full-table iteration visits zero
entries. -/
theorem clearIndex_empties (σ : IndexState) :
    (clearIndex σ).totalFiles = 0 ∧ allEntries (clearIndex σ) = [] := by
  exact ⟨rfl, flatMap_const_nil _⟩

/-- **C9**: the scan writes no index state, so running `search` twice in
succession on the unchanged index yields the same match list (and the
same index). -/
theorem search_idempotent (σ : IndexState) (q : List Nat) :
    (searchS ((searchS σ q).2) q).1 = (searchS σ q).1
    ∧ (searchS σ q).2 = σ :=
  ⟨rfl, rfl⟩

/-! ## The early-termination cap (claim C3) -/

theorem hash_lt (n : List Nat) : hash n < HASH_TABLE_SIZE :=
  Nat.mod_lt _ (by decide)

/-- 50 entries, all with filename `"aaa"` (so all matching the query
`"a"`). -/
def cexEntries : List FileEntry :=
  List.replicate 50 ⟨[97, 97, 97], [47, 112]⟩

/-- The index state holding the 50 entries of `cexEntries`, all in
bucket `hash "aaa"` — the state reached by 50 `addFile` calls with the
name `"aaa"`. -/
def cexIndex : IndexState where
  hashTable := Function.update (fun _ => []) (hash [97, 97, 97]) cexEntries
  totalFiles := 50

theorem flatMap_nil_of {β : Type} (is : List Nat) (f : Nat → List β)
    (h : ∀ i ∈ is, f i = []) : is.flatMap f = [] := by
  induction is with
  | nil => rfl
  | cons i it ih =>
      simp only [List.flatMap_cons]
      rw [h i (List.mem_cons_self i it),
        ih fun j hj => h j (List.mem_cons_of_mem i hj)]
      rfl

theorem flatMap_congr {β : Type} (is : List Nat) (f g : Nat → List β)
    (h : ∀ i ∈ is, f i = g i) : is.flatMap f = is.flatMap g := by
  induction is with
  | nil => rfl
  | cons i it ih =>
      simp only [List.flatMap_cons]
      rw [h i (List.mem_cons_self i it),
        ih fun j hj => h j (List.mem_cons_of_mem i hj)]

theorem flatMap_delta {β : Type} (is : List Nat) (hnd : is.Nodup) (b : Nat)
    (hb : b ∈ is) (v : List β) :
    (is.flatMap fun i => if i = b then v else []) = v := by
  induction is with
  | nil => cases hb
  | cons i it ih =>
      simp only [List.flatMap_cons]
      rcases List.mem_cons.mp hb with hbi | hmem
      · subst hbi
        rw [if_pos rfl]
        rw [flatMap_nil_of it _ fun j hj => if_neg
              fun (hji : j = b) => (List.nodup_cons.mp hnd).1 (hji ▸ hj)]
        simp
      · rw [if_neg fun (hib : i = b) => (List.nodup_cons.mp hnd).1 (hib ▸ hmem)]
        rw [ih (List.nodup_cons.mp hnd).2 hmem]
        rfl

theorem allMatches_cexIndex : allMatches cexIndex [97] = cexEntries := by
  have hpt : ∀ i ∈ List.range HASH_TABLE_SIZE,
      bucketMatches [97] (cexIndex.hashTable i)
        = (if i = hash [97, 97, 97] then cexEntries else []) := by
    intro i _
    by_cases hi : i = hash [97, 97, 97]
    · subst hi
      rw [if_pos rfl]
      show bucketMatches [97] (Function.update (fun _ => [])
            (hash [97, 97, 97]) cexEntries (hash [97, 97, 97])) = cexEntries
      rw [Function.update_same]
      decide
    · rw [if_neg hi]
      show bucketMatches [97] (Function.update (fun _ => [])
            (hash [97, 97, 97]) cexEntries i) = []
      rw [Function.update_noteq hi]
      rfl
  show (List.range HASH_TABLE_SIZE).flatMap
      (fun i => bucketMatches [97] (cexIndex.hashTable i)) = cexEntries
  rw [flatMap_congr (List.range HASH_TABLE_SIZE) _
        (fun i => if i = hash [97, 97, 97] then cexEntries else []) hpt]
  exact flatMap_delta (List.range HASH_TABLE_SIZE)
    (List.nodup_range HASH_TABLE_SIZE) (hash [97, 97, 97])
    (List.mem_range.mpr (hash_lt [97, 97, 97])) cexEntries

/-- **C3** (counterexample): the scan does NOT stop at `MAX_RESULTS`.
With 50 entries all matching the query `"a"` — at least `MAX_RESULTS`
matching entries — the search does not return `MAX_RESULTS` matches
(it returns `VIEWPORT_HEIGHT = 12`). -/
theorem search_cap_not_max_results :
    ¬ (∀ (σ : IndexState) (q : List Nat), q ≠ [] →
        MAX_RESULTS ≤ (allMatches σ q).length →
        (searchMatches σ q).length = MAX_RESULTS) := by
  intro hclaim
  have hall : (allMatches cexIndex [97]).length = 50 := by
    rw [allMatches_cexIndex]
    decide
  have hle : MAX_RESULTS ≤ (allMatches cexIndex [97]).length := by
    rw [hall]
    decide
  have h12 : (searchMatches cexIndex [97]).length = VIEWPORT_HEIGHT := by
    rw [search_characterization cexIndex [97] (by decide),
      allMatches_cexIndex]
    decide
  have hcontra := hclaim cexIndex [97] (by decide) hle
  rw [hcontra] at h12
  exact absurd h12 (by decide)

/-- **C3** (amended): the early-termination cap of the scan is
`VIEWPORT_HEIGHT` (12), not `MAX_RESULTS` (50): for every non-empty
query, if the index contains at least 12 matching entries, the search
returns exactly 12 matches. -/
theorem search_cap_viewport (σ : IndexState) (q : List Nat) (hq : q ≠ [])
    (h : VIEWPORT_HEIGHT ≤ (allMatches σ q).length) :
    (searchMatches σ q).length = VIEWPORT_HEIGHT := by
  rw [search_characterization σ q hq]
  simp only [List.length_take]
  omega

theorem search_cap_viewport_witness :
    (searchMatches cexIndex [97]).length = VIEWPORT_HEIGHT :=
  search_cap_viewport cexIndex [97] (by decide)
    (by rw [allMatches_cexIndex]; decide)

/-! ## The hash and the index invariant (claim C5) -/

theorem hashAcc_eq_djb2 (l : List Nat) :
    ∀ h h', h % ULONG_MOD = h' % ULONG_MOD →
      hashAcc h l % ULONG_MOD = djb2Acc h' (l.map toLowerB) % ULONG_MOD := by
  induction l with
  | nil =>
      intro h h' hh
      simpa [hashAcc, djb2Acc] using hh
  | cons c cs ih =>
      intro h h' hh
      show hashAcc ((h * 33 + toLowerB c) % ULONG_MOD) cs % ULONG_MOD
          = djb2Acc (h' * 33 + toLowerB c) (cs.map toLowerB) % ULONG_MOD
      apply ih
      rw [Nat.mod_mod_of_dvd _ dvd_rfl]
      exact (Nat.ModEq.mul_right 33 hh).add_right (toLowerB c)

/-- The inline-`tolower` wrapping hash of the code equals the spec's
formula "DJB2 of the lowercased name, mod the table size": the machine
wrap `mod 2^64` is transparent to the final `mod 16384` because
16384 divides 2^64. -/
theorem hash_eq_bucketSpec (n : List Nat) : hash n = bucketSpec n := by
  have hd : HASH_TABLE_SIZE ∣ ULONG_MOD := ⟨2 ^ 50, by decide⟩
  have h := hashAcc_eq_djb2 n 5381 5381 rfl
  calc hash n = hashAcc 5381 n % ULONG_MOD % HASH_TABLE_SIZE := by
        rw [Nat.mod_mod_of_dvd _ hd]
        rfl
    _ = djb2Acc 5381 (n.map toLowerB) % ULONG_MOD % HASH_TABLE_SIZE := by
        rw [h]
    _ = bucketSpec n := by
        rw [Nat.mod_mod_of_dvd _ hd]
        rfl

theorem length_comp_update (f : Nat → List FileEntry) (i : Nat)
    (b : List FileEntry) :
    (fun x => ((Function.update f i b) x).length)
      = Function.update (fun x => (f x).length) i b.length := by
  funext x
  by_cases hx : x = i
  · subst hx
    simp [Function.update_same]
  · simp [Function.update_noteq hx]

theorem insertAll_totalFiles (files : List (List Nat × List Nat)) :
    ∀ σ : IndexState,
      (insertAll files σ).totalFiles = σ.totalFiles + files.length := by
  induction files with
  | nil =>
      intro σ
      rfl
  | cons f fs ih =>
      intro σ
      show (insertAll fs (addFile σ f.1 f.2)).totalFiles = _
      rw [ih]
      show σ.totalFiles + 1 + fs.length = σ.totalFiles + (fs.length + 1)
      omega

/-- **C5**: the index invariant is preserved by every operation:
`totalFiles` always equals the sum of all bucket lengths, each inserted
entry lands in exactly the bucket `hash(lowercase(name)) mod TABLE_SIZE`
(all other buckets unchanged), and after inserting `N` files into the
empty index `totalFiles = N`. -/
theorem index_invariant :
    (∀ (σ : IndexState) (n p : List Nat), Inv σ → Inv (addFile σ n p))
    ∧ (∀ σ : IndexState, Inv (clearIndex σ))
    ∧ (∀ (σ : IndexState) (n p : List Nat),
        (addFile σ n p).hashTable (bucketSpec n)
            = ⟨n, p⟩ :: σ.hashTable (bucketSpec n)
        ∧ ∀ j, j ≠ bucketSpec n →
            (addFile σ n p).hashTable j = σ.hashTable j)
    ∧ (∀ files : List (List Nat × List Nat),
        (insertAll files emptyIndex).totalFiles = files.length) := by
  refine ⟨?_, ?_, ?_, ?_⟩
  · intro σ n p hInv
    have hmem : hash n ∈ Finset.range HASH_TABLE_SIZE :=
      Finset.mem_range.mpr (hash_lt n)
    have hsum : (σ.hashTable (hash n)).length
          + ∑ x in (Finset.range HASH_TABLE_SIZE).erase (hash n),
              (σ.hashTable x).length
        = ∑ i in Finset.range HASH_TABLE_SIZE, (σ.hashTable i).length :=
      Finset.add_sum_erase (Finset.range HASH_TABLE_SIZE)
        (fun i => (σ.hashTable i).length) hmem
    unfold Inv sumBucketLens at hInv ⊢
    show σ.totalFiles + 1 = _
    rw [show (addFile σ n p).hashTable = Function.update σ.hashTable (hash n)
          (⟨n, p⟩ :: σ.hashTable (hash n)) from rfl]
    rw [length_comp_update σ.hashTable (hash n)
          (⟨n, p⟩ :: σ.hashTable (hash n))]
    rw [Finset.sum_update_of_mem hmem, Finset.sdiff_singleton_eq_erase]
    show σ.totalFiles + 1 = (⟨n, p⟩ :: σ.hashTable (hash n)).length
        + ∑ x in (Finset.range HASH_TABLE_SIZE).erase (hash n),
            (σ.hashTable x).length
    simp only [List.length_cons]
    omega
  · intro σ
    unfold Inv sumBucketLens
    simp [clearIndex]
  · intro σ n p
    constructor
    · rw [← hash_eq_bucketSpec]
      show Function.update σ.hashTable (hash n)
          (⟨n, p⟩ :: σ.hashTable (hash n)) (hash n) = _
      rw [Function.update_same]
    · intro j hj
      rw [← hash_eq_bucketSpec] at hj
      exact Function.update_noteq hj _ _
  · intro files
    rw [insertAll_totalFiles files emptyIndex]
    show 0 + files.length = files.length
    omega

/-! ## Enter handling (claims C7, C10) -/

/-- **C7**: the launcher is invoked exactly when Enter is pressed with a
non-empty MatchSet and the textual selection parses (by `atoi`) to a
choice in `[1, N]`, in which case it receives the full path of entry
number `choice`; Enter with an empty MatchSet is a no-op that keeps the
query; selections of 0, out-of-range or non-numeric input launch
nothing. -/
theorem enter_launch_characterization (q : List Nat) (ms : List FileEntry)
    (inp : Option (List Nat)) :
    (handleEnter q ms inp).launched = launchSpec ms inp
    ∧ handleEnter q [] inp = { launched := none, query := q } := by
  constructor
  · cases ms with
    | nil => cases inp <;> simp [handleEnter, launchSpec]
    | cons e rest =>
        cases inp with
        | none => simp [handleEnter, launchSpec]
        | some line =>
            simp only [handleEnter, launchSpec]
            simp only [List.length_cons, Nat.zero_lt_succ, if_true, ne_eq,
              List.cons_ne_nil, not_false_iff, true_and]
            by_cases hc : 0 < atoi line
                ∧ atoi line ≤ ((rest.length + 1 : Nat) : Int)
            · rw [if_pos hc, if_pos ⟨by omega, hc.2⟩]
            · rw [if_neg hc, if_neg ?_]
              rintro ⟨h1, h2⟩
              exact hc ⟨by omega, h2⟩
  · cases inp <;> simp [handleEnter]

/-- **C10**: whenever Enter is pressed with a non-empty MatchSet, the
query buffer is cleared by the time control returns to typing — whether
the selection was valid, invalid, or `fgets` failed. -/
theorem enter_clears_query (q : List Nat) (ms : List FileEntry)
    (inp : Option (List Nat)) (h : ms ≠ []) :
    (handleEnter q ms inp).query = [] := by
  cases ms with
  | nil => exact absurd rfl h
  | cons e rest => simp [handleEnter]

theorem enter_clears_query_witness :
    (handleEnter [113] [⟨[97], [47, 97]⟩] none).query = [] :=
  enter_clears_query [113] [⟨[97], [47, 97]⟩] none (by simp)

end Indexer
